import Mathlib

/-!
Shallow embedding of the trafapy client core (query building, batching,
retry execution, rate limiting, batch-result merging, response cache),
with theorems checking the natural-language specification against it.

Python dictionaries with insertion order are modelled as association
lists; clock time and sleep amounts are modelled as exact rationals.
-/

namespace Trafapy

/-- A variable's value in a query specification: either a single scalar
string or an ordered list of strings (Python `Union[str, List[str]]`). -/
inductive VarValue where
  | scalar (s : String)
  | listv (vs : List String)
deriving DecidableEq, Repr

/-- A variable-to-value mapping, in Python-dict insertion order. -/
abbrev Variables := List (String × VarValue)

/-- Python `vars[name]` / `dict.get`: value of the first entry whose
key is `name`. -/
def dictGet (vars : Variables) (n : String) : Option VarValue :=
  (vars.find? (fun nv => nv.1 = n)).map (·.2)

/-- Python `d[name] = v` on a copy of the dict: replace the value at the
first entry with key `name`, keeping insertion order; append if absent. -/
def dictSet (vars : Variables) (n : String) (v : VarValue) : Variables :=
  match vars with
  | [] => [(n, v)]
  | (m, w) :: rest => if m = n then (m, v) :: rest else (m, w) :: dictSet rest n v

/-- `TrafikanalysClient._build_query`: the product code followed by one
segment per variable, joined by `|`; a non-empty list value renders as
`name:v1,v2,...`, a non-empty scalar as `name:value`, and a falsy value
(empty list or empty string) as the bare name. -/
def build_query (product_code : String) (vars : Variables) : String :=
  let query_parts := product_code :: vars.map fun nv =>
    match nv.2 with
    | .listv vs => if vs.isEmpty then nv.1 else nv.1 ++ ":" ++ String.intercalate "," vs
    | .scalar s => if s.isEmpty then nv.1 else nv.1 ++ ":" ++ s
  String.intercalate "|" query_parts

/-- Rendering of one variable segment as the specification words it
(name alone when the value is empty/absent; `name:value` for a single
scalar; `name:v1,v2,...` for a non-empty ordered sequence). -/
def querySegmentSpec (nv : String × VarValue) : String :=
  match nv.2 with
  | .listv vs => if vs.isEmpty then nv.1 else nv.1 ++ ":" ++ String.intercalate "," vs
  | .scalar s => if s.isEmpty then nv.1 else nv.1 ++ ":" ++ s

/-- Query string as the specification words it: product code followed by
one segment per variable in insertion order, joined with `|`. -/
def buildQuerySpec (product_code : String) (vars : Variables) : String :=
  String.intercalate "|" (product_code :: vars.map querySegmentSpec)

/-- `TrafikanalysClient._needs_batching`: true iff some list-valued
variable has more than `max_batch_size` values. -/
def needs_batching (max_batch_size : Nat) (vars : Variables) : Bool :=
  vars.any fun nv =>
    match nv.2 with
    | .listv vs => max_batch_size < vs.length
    | .scalar _ => false

/-- The `variables_to_batch` list of `_create_batches`: the `(name,
length)` pairs of list-valued vars longer than `max_batch_size`,
in iteration order. -/
def varsToBatch (max_batch_size : Nat) (vars : Variables) : List (String × Nat) :=
  vars.filterMap fun nv =>
    match nv.2 with
    | .listv vs => if max_batch_size < vs.length then some (nv.1, vs.length) else none
    | .scalar _ => none

/-- Stable insertion into a list sorted by size descending.  The sort
below folds from the right, so the inserted element stands earlier in
the original list than everything already inserted: it goes after the
elements of strictly larger size and before those of equal or smaller
size, as Python's stable `list.sort` with `reverse=True` does. -/
def insertBySizeDesc (x : String × Nat) : List (String × Nat) → List (String × Nat)
  | [] => [x]
  | y :: ys => if x.2 < y.2 then y :: insertBySizeDesc x ys else x :: y :: ys

/-- `variables_to_batch.sort(key=lambda x: x[1], reverse=True)`: a stable
sort by size, largest first. -/
def sortBySizeDesc (l : List (String × Nat)) : List (String × Nat) :=
  l.foldr insertBySizeDesc []

/-- `batch_values[i:i + max_batch_size]` for `i in range(0, len, max)`:
split a list into contiguous chunks of `k` elements, last chunk possibly
shorter.  (`k = 0` would raise in Python; here it yields no chunks.) -/
def chunkList (k : Nat) (l : List String) : List (List String) :=
  if l.isEmpty then []
  else if k = 0 then []
  else l.take k :: chunkList k (l.drop k)
termination_by l.length
decreasing_by
  simp only [List.isEmpty_eq_true] at *
  have hl : 0 < l.length := List.length_pos.mpr (by assumption)
  have hk : 0 < k := Nat.pos_of_ne_zero (by assumption)
  simpa using Nat.sub_lt hl hk

/-- `TrafikanalysClient._create_batches`: if no variable is oversized,
one batch holding the input unchanged; otherwise the variable of largest
value count (stable sort puts the first-encountered maximum first) is
split into chunks of at most `max_batch_size` values, each chunk paired
with every other variable unchanged. -/
def create_batches (max_batch_size : Nat) (vars : Variables) : List Variables :=
  let toBatch := varsToBatch max_batch_size vars
  if toBatch.isEmpty then [vars]
  else
    let sorted := sortBySizeDesc toBatch
    let batchVarName := (sorted.headD ("", 0)).1
    let batchValues :=
      match dictGet vars batchVarName with
      | some (.listv vs) => vs
      | _ => []
    let batches := (chunkList max_batch_size batchValues).map
      fun chunk => dictSet vars batchVarName (.listv chunk)
    if batches.isEmpty then [vars] else batches

/-! ### Dictionary lemmas -/

theorem dictGet_dictSet_same (vars : Variables) (n : String) (v : VarValue) :
    dictGet (dictSet vars n v) n = some v := by
  induction vars with
  | nil => simp [dictGet, dictSet, List.find?]
  | cons hd tl ih =>
    obtain ⟨m, w⟩ := hd
    by_cases h : m = n
    · subst h
      simp [dictGet, dictSet, List.find?]
    · simpa [dictGet, dictSet, List.find?, h] using ih

theorem dictGet_dictSet_other (vars : Variables) (n m : String) (v : VarValue)
    (h : m ≠ n) : dictGet (dictSet vars n v) m = dictGet vars m := by
  induction vars with
  | nil => simp [dictGet, dictSet, List.find?, Ne.symm h]
  | cons hd tl ih =>
    obtain ⟨a, w⟩ := hd
    by_cases ha : a = n
    · subst ha
      simp [dictGet, dictSet, List.find?, Ne.symm h]
    · by_cases hm : a = m
      · subst hm
        simp [dictGet, dictSet, List.find?, ha]
      · simpa [dictGet, dictSet, List.find?, ha, hm] using ih

/-! ### Stable descending sort lemmas -/

theorem sortBySizeDesc_cons (z : String × Nat) (zs : List (String × Nat)) :
    sortBySizeDesc (z :: zs) = insertBySizeDesc z (sortBySizeDesc zs) := rfl

theorem mem_insertBySizeDesc {x y : String × Nat} {l : List (String × Nat)} :
    y ∈ insertBySizeDesc x l ↔ y = x ∨ y ∈ l := by
  induction l with
  | nil => simp [insertBySizeDesc]
  | cons z zs ih =>
    by_cases h : x.2 < z.2
    · simp only [insertBySizeDesc, if_pos h, List.mem_cons, ih]
      tauto
    · simp only [insertBySizeDesc, if_neg h, List.mem_cons]

theorem mem_sortBySizeDesc {y : String × Nat} {l : List (String × Nat)} :
    y ∈ sortBySizeDesc l ↔ y ∈ l := by
  induction l with
  | nil => simp [sortBySizeDesc]
  | cons z zs ih =>
    rw [sortBySizeDesc_cons, mem_insertBySizeDesc, List.mem_cons, ih]

/-- The head of the stable, size-descending sort is the
first-encountered element of maximal size. -/
theorem sortBySizeDesc_head (pre post : List (String × Nat)) (x : String × Nat)
    (hpre : ∀ p ∈ pre, p.2 < x.2)
    (hmax : ∀ q ∈ pre ++ x :: post, q.2 ≤ x.2) :
    (sortBySizeDesc (pre ++ x :: post)).head? = some x := by
  induction pre with
  | nil =>
    simp only [List.nil_append]
    rw [sortBySizeDesc_cons]
    cases hs : sortBySizeDesc post with
    | nil => simp [insertBySizeDesc]
    | cons y ys =>
      have hy : y ∈ post := by
        have : y ∈ sortBySizeDesc post := by
          rw [hs]; exact List.mem_cons_self _ _
        exact mem_sortBySizeDesc.mp this
      have hne : ¬ x.2 < y.2 :=
        Nat.not_lt.mpr (hmax y (by simp [hy]))
      simp [insertBySizeDesc, hne]
  | cons p pre' ih =>
    have hp : p.2 < x.2 := hpre p (List.mem_cons_self _ _)
    have ih' := ih (fun q hq => hpre q (List.mem_cons_of_mem _ hq))
      (fun q hq => hmax q (by
        simp only [List.cons_append, List.mem_cons]
        exact Or.inr hq))
    rw [List.cons_append, sortBySizeDesc_cons]
    cases hs : sortBySizeDesc (pre' ++ x :: post) with
    | nil => rw [hs] at ih'; simp at ih'
    | cons y ys =>
      rw [hs] at ih'
      simp only [List.head?_cons, Option.some.injEq] at ih'
      subst ih'
      simp [insertBySizeDesc, hp]

/-! ### Chunking lemmas -/

theorem chunkList_flatten (k : Nat) (l : List String) (hk : k ≠ 0) :
    (chunkList k l).flatten = l := by
  rw [chunkList]
  by_cases hl : l.isEmpty
  · rw [if_pos hl]
    rw [List.isEmpty_eq_true] at hl
    simp [hl]
  · rw [if_neg hl, if_neg hk]
    rw [List.flatten_cons, chunkList_flatten k (l.drop k) hk, List.take_append_drop]
termination_by l.length
decreasing_by
  simp only [List.isEmpty_eq_true] at *
  have h1 : 0 < l.length := List.length_pos.mpr (by assumption)
  have h2 : 0 < k := Nat.pos_of_ne_zero hk
  simpa using Nat.sub_lt h1 h2

theorem chunkList_length (k : Nat) (l : List String) (hk : k ≠ 0) (hl : l ≠ []) :
    (chunkList k l).length = (l.length + k - 1) / k := by
  rw [chunkList]
  rw [if_neg (by simpa [List.isEmpty_eq_true] using hl), if_neg hk]
  have hlen : 0 < l.length := List.length_pos.mpr hl
  have hkpos : 0 < k := Nat.pos_of_ne_zero hk
  by_cases hbig : l.length ≤ k
  · have hdrop : l.drop k = [] := List.drop_eq_nil_of_le hbig
    rw [hdrop, chunkList]
    simp only [List.isEmpty_nil, if_pos, List.length_cons, List.length_nil]
    have h1 : l.length + k - 1 = (l.length - 1) + k := by omega
    rw [h1, Nat.add_div_right _ hkpos, Nat.div_eq_of_lt (by omega)]
  · push_neg at hbig
    have hdrop : l.drop k ≠ [] := by
      rw [← List.length_pos, List.length_drop]; omega
    rw [List.length_cons, chunkList_length k (l.drop k) hk hdrop, List.length_drop]
    have h3 : l.length + k - 1 = (l.length - k + k - 1) + k := by omega
    rw [h3, Nat.add_div_right _ hkpos]
termination_by l.length
decreasing_by
  have h1 : 0 < l.length := List.length_pos.mpr hl
  have h2 : 0 < k := Nat.pos_of_ne_zero hk
  simpa using Nat.sub_lt h1 h2

theorem chunkList_mem_length (k : Nat) (l c : List String)
    (hc : c ∈ chunkList k l) : c.length ≤ k := by
  rw [chunkList] at hc
  by_cases hl : l.isEmpty
  · rw [if_pos hl] at hc; simp at hc
  · rw [if_neg hl] at hc
    by_cases hk : k = 0
    · rw [if_pos hk] at hc; simp at hc
    · rw [if_neg hk] at hc
      rcases List.mem_cons.mp hc with h | h
      · subst h
        simp only [List.length_take]
        exact Nat.min_le_left k l.length
      · exact chunkList_mem_length k (l.drop k) c h
termination_by l.length
decreasing_by
  simp only [List.isEmpty_eq_true] at *
  have h1 : 0 < l.length := List.length_pos.mpr (by assumption)
  have h2 : 0 < k := Nat.pos_of_ne_zero hk
  simpa using Nat.sub_lt h1 h2

theorem chunkList_ne_nil (k : Nat) (l : List String) (hk : k ≠ 0) (hl : l ≠ []) :
    chunkList k l ≠ [] := by
  rw [chunkList, if_neg (by simpa [List.isEmpty_eq_true] using hl), if_neg hk]
  simp

/-! ### Structure of `create_batches` in the oversized case -/

theorem create_batches_eq (k : Nat) (vars : Variables) (n : String) (vs : List String)
    (pre post : List (String × Nat))
    (hk : k ≠ 0)
    (hsplit : varsToBatch k vars = pre ++ (n, vs.length) :: post)
    (hget : dictGet vars n = some (.listv vs))
    (hov : k < vs.length)
    (hpre : ∀ p ∈ pre, p.2 < vs.length)
    (hmax : ∀ q ∈ varsToBatch k vars, q.2 ≤ vs.length) :
    create_batches k vars =
      (chunkList k vs).map fun chunk => dictSet vars n (.listv chunk) := by
  have hvs : vs ≠ [] := by
    intro h; rw [h] at hov; simp at hov
  have hne : (varsToBatch k vars).isEmpty = false := by
    rw [hsplit]; simp
  have hhead : (sortBySizeDesc (varsToBatch k vars)).head? = some (n, vs.length) := by
    rw [hsplit]
    exact sortBySizeDesc_head pre post (n, vs.length) hpre
      (fun q hq => hmax q (by rw [hsplit]; exact hq))
  have hheadD : (sortBySizeDesc (varsToBatch k vars)).headD ("", 0) = (n, vs.length) := by
    rw [List.headD_eq_head?, hhead]; rfl
  rw [create_batches]
  simp only [hne, Bool.false_eq_true, if_false, hheadD, hget]
  rw [if_neg (by simp [chunkList_ne_nil k vs hk hvs])]

/-- C1: when some list-valued variable is longer than `max_batch_size = k`,
`_create_batches` splits the first-encountered variable of maximal length
`N` (hypotheses place `(n, N)` first among the maxima of
`variables_to_batch`) into exactly `⌈N/k⌉` batches; the chunks of that
variable concatenate, in order, to the original sequence, each chunk has
at most `k` values, and every other variable is unchanged in every
batch. -/
theorem create_batches_correct (k : Nat) (vars : Variables) (n : String)
    (vs : List String) (pre post : List (String × Nat))
    (hk : 1 ≤ k)
    (hsplit : varsToBatch k vars = pre ++ (n, vs.length) :: post)
    (hget : dictGet vars n = some (.listv vs))
    (hov : k < vs.length)
    (hpre : ∀ p ∈ pre, p.2 < vs.length)
    (hmax : ∀ q ∈ varsToBatch k vars, q.2 ≤ vs.length) :
    (create_batches k vars).length = (vs.length + k - 1) / k ∧
    ((create_batches k vars).map fun b =>
      match dictGet b n with
      | some (.listv ws) => ws
      | _ => []).flatten = vs ∧
    (∀ b ∈ create_batches k vars, ∃ ws,
      dictGet b n = some (.listv ws) ∧ ws.length ≤ k) ∧
    (∀ b ∈ create_batches k vars, ∀ m, m ≠ n →
      dictGet b m = dictGet vars m) := by
  have hk0 : k ≠ 0 := by omega
  have hvs : vs ≠ [] := by
    intro h; rw [h] at hov; simp at hov
  have heq := create_batches_eq k vars n vs pre post hk0 hsplit hget hov hpre hmax
  rw [heq]
  refine ⟨?_, ?_, ?_, ?_⟩
  · rw [List.length_map, chunkList_length k vs hk0 hvs]
  · rw [List.map_map]
    have hfun : ∀ c ∈ chunkList k vs,
        ((fun b => match dictGet b n with
          | some (.listv ws) => ws
          | _ => []) ∘ fun chunk => dictSet vars n (.listv chunk)) c = c := by
      intro c _
      simp only [Function.comp_apply, dictGet_dictSet_same]
    rw [List.map_congr_left hfun, List.map_id', chunkList_flatten k vs hk0]
  · intro b hb
    obtain ⟨c, hc, rfl⟩ := List.mem_map.mp hb
    exact ⟨c, dictGet_dictSet_same vars n (.listv c), chunkList_mem_length k vs c hc⟩
  · intro b hb m hm
    obtain ⟨c, hc, rfl⟩ := List.mem_map.mp hb
    exact dictGet_dictSet_other vars n m (.listv c) hm

/-- Witness for C1 at a concrete input: two variables, one with five
values, `max_batch_size = 2`, giving three batches. -/
theorem create_batches_correct_witness :
    (create_batches 2 [("a", .listv ["1", "2", "3", "4", "5"]), ("b", .scalar "x")]).length
      = (5 + 2 - 1) / 2 ∧
    ((create_batches 2 [("a", .listv ["1", "2", "3", "4", "5"]), ("b", .scalar "x")]).map
      fun b => match dictGet b "a" with
        | some (.listv ws) => ws
        | _ => []).flatten = ["1", "2", "3", "4", "5"] ∧
    (∀ b ∈ create_batches 2 [("a", .listv ["1", "2", "3", "4", "5"]), ("b", .scalar "x")],
      ∃ ws, dictGet b "a" = some (.listv ws) ∧ ws.length ≤ 2) ∧
    (∀ b ∈ create_batches 2 [("a", .listv ["1", "2", "3", "4", "5"]), ("b", .scalar "x")],
      ∀ m, m ≠ "a" → dictGet b m = dictGet [("a", .listv ["1", "2", "3", "4", "5"]), ("b", .scalar "x")] m) := by
  have h := create_batches_correct 2
    [("a", .listv ["1", "2", "3", "4", "5"]), ("b", .scalar "x")] "a"
    ["1", "2", "3", "4", "5"] [] []
    (by decide) (by decide) (by decide) (by decide)
    (by intro p hp; simp at hp) (by decide)
  simpa using h

/-- C7: `_build_query` renders the concrete example
`("p", {"a": ["1","2"], "b": "3", "c": ""})` as `"p|a:1,2|b:3|c"`, an
empty mapping yields just the product code, and in general the result is
the product code followed by the per-variable segments in insertion
order joined by `|`, exactly as the specification grammar words it. -/
theorem build_query_grammar :
    build_query "p" [("a", .listv ["1", "2"]), ("b", .scalar "3"), ("c", .scalar "")]
      = "p|a:1,2|b:3|c" ∧
    (∀ p : String, build_query p [] = p) ∧
    (∀ (p : String) (vars : Variables), build_query p vars = buildQuerySpec p vars) := by
  refine ⟨by decide, fun p => rfl, fun p vars => rfl⟩

/-! ### Retry executor (`RateLimiter.execute_with_retry`) -/

/-- A raised Python exception as `execute_with_retry` classifies it: a
`requests.exceptions.RequestException` optionally carrying a response
with an HTTP status code (`none` models a connection error, whose
`response` attribute is `None`), or an exception of any other class. -/
inductive PyError where
  | reqExc (status : Option Nat)
  | other
deriving DecidableEq, Repr

/-- The retry loop of `RateLimiter.execute_with_retry`, by recursion on
the retries still allowed (`remaining = max_retries - attempt`; the
Python loop runs `attempt` from `0` through `max_retries`).  `op` maps
the attempt number to that invocation's outcome.  Result: the final
outcome paired with the number of times `op` was invoked.  Only a
request exception carrying a 429 or ≥ 500 status is retried (after a
backoff sleep); anything else is re-raised at once, and when
`remaining = 0` (i.e. `attempt == max_retries`) the failure propagates
unconditionally. -/
def retryGo (op : Nat → Except PyError α) (attempt remaining : Nat) :
    Except PyError α × Nat :=
  match op attempt with
  | .ok a => (.ok a, 1)
  | .error e =>
    match remaining with
    | 0 => (.error e, 1)
    | r + 1 =>
      match e with
      | .reqExc (some s) =>
        if s = 429 ∨ 500 ≤ s then
          ((retryGo op (attempt + 1) r).1, (retryGo op (attempt + 1) r).2 + 1)
        else (.error e, 1)
      | _ => (.error e, 1)

/-- `RateLimiter.execute_with_retry`: run the loop from attempt 0 with
`max_retries` retries allowed. -/
def execute_with_retry (max_retries : Nat) (op : Nat → Except PyError α) :
    Except PyError α × Nat :=
  retryGo op 0 max_retries

theorem retryGo_count_le (op : Nat → Except PyError α) (remaining attempt : Nat) :
    (retryGo op attempt remaining).2 ≤ remaining + 1 := by
  induction remaining generalizing attempt with
  | zero =>
    rw [retryGo]
    cases op attempt with
    | ok a => simp
    | error e => cases e <;> simp
  | succ r ih =>
    rw [retryGo]
    cases op attempt with
    | ok a => simp
    | error e =>
      match e with
      | .reqExc (some s) =>
        by_cases hs : s = 429 ∨ 500 ≤ s
        · simp only [if_pos hs]
          have := ih (attempt + 1)
          omega
        · simp [hs]
      | .reqExc none => simp
      | .other => simp

/-- C3: an operation that always raises a 429-carrying request exception
is, with `max_retries = 1`, invoked exactly twice and the failure then
propagates; in general the operation runs at most `max_retries + 1`
times, and `max_retries = 0` means exactly one invocation. -/
theorem execute_with_retry_attempts (op : Nat → Except PyError α)
    (h : ∀ i, op i = .error (.reqExc (some 429))) :
    (execute_with_retry 1 op).2 = 2 ∧
    (execute_with_retry 1 op).1 = .error (.reqExc (some 429)) ∧
    (∀ (m : Nat) (op2 : Nat → Except PyError α),
      (execute_with_retry m op2).2 ≤ m + 1) ∧
    (∀ op3 : Nat → Except PyError α, (execute_with_retry 0 op3).2 = 1) := by
  refine ⟨?_, ?_, ?_, ?_⟩
  · simp [execute_with_retry, retryGo, h]
  · simp [execute_with_retry, retryGo, h]
  · intro m op2
    exact retryGo_count_le op2 m 0
  · intro op3
    rw [execute_with_retry, retryGo]
    cases hop : op3 0 <;> simp

/-- Witness for C3 at the constant 429-failing operation. -/
theorem execute_with_retry_attempts_witness :
    (execute_with_retry 1 (fun _ => (.error (.reqExc (some 429)) : Except PyError Unit))).2 = 2 ∧
    (execute_with_retry 1 (fun _ => (.error (.reqExc (some 429)) : Except PyError Unit))).1
      = .error (.reqExc (some 429)) ∧
    (∀ (m : Nat) (op2 : Nat → Except PyError Unit),
      (execute_with_retry m op2).2 ≤ m + 1) ∧
    (∀ op3 : Nat → Except PyError Unit, (execute_with_retry 0 op3).2 = 1) :=
  execute_with_retry_attempts (fun _ => .error (.reqExc (some 429))) (fun _ => rfl)

/-- C4 counterexample: an operation that always raises a request
exception with no response object (a connection error) is invoked only
once even with `max_retries = 3` — it is not retried at all, contrary to
the claim that connection errors are retried up to the configured
bound. -/
theorem connection_error_cex :
    (execute_with_retry 3 (fun _ => (.error (.reqExc none) : Except PyError Unit))).2 = 1 ∧
    (execute_with_retry 3 (fun _ => (.error (.reqExc none) : Except PyError Unit))).1
      = .error (.reqExc none) := by
  constructor <;> rfl

/-- C4 amended: only request exceptions carrying a response with status
429 or ≥ 500 are retried; a request exception with no response object
(connection error) is surfaced to the caller immediately after a single
invocation, with no retry. -/
theorem connection_error_propagates (max_retries : Nat)
    (op : Nat → Except PyError α) (h : op 0 = .error (.reqExc none)) :
    execute_with_retry max_retries op = (.error (.reqExc none), 1) := by
  cases max_retries <;> rw [execute_with_retry, retryGo, h]

/-- Witness for the amended C4 at the constant connection-error
operation with `max_retries = 3`. -/
theorem connection_error_propagates_witness :
    execute_with_retry 3 (fun _ => (.error (.reqExc none) : Except PyError Unit))
      = (.error (.reqExc none), 1) :=
  connection_error_propagates 3 _ rfl

/-! ### Rate limiter (`RateLimiter.wait_if_needed`), over exact
rational time: sleeping advances the clock by exactly the sleep
amount. -/

/-- The burst-window wait of `wait_if_needed`: if the pruned window
already holds at least `burst_size` calls, sleep
`1 - (now - call_times[0])` when that is positive. -/
def burstWait (burst_size : Nat) (pruned : List ℚ) (now : ℚ) : ℚ :=
  if burst_size ≤ pruned.length then
    if 0 < 1 - (now - pruned.headD 0) then now + (1 - (now - pruned.headD 0)) else now
  else now

/-- The minimum-interval wait of `wait_if_needed`: if there is a
recorded call and the last one is less than `min_interval` old, sleep
the difference. -/
def rateWait (min_interval : ℚ) (pruned : List ℚ) (now : ℚ) : ℚ :=
  if pruned.isEmpty then now
  else if now - pruned.getLastD 0 < min_interval then
    now + (min_interval - (now - pruned.getLastD 0))
  else now

/-- `RateLimiter.wait_if_needed`: prune entries older than the 1-unit
window, apply the burst wait and then the minimum-interval wait, and
record the admission.  Returns the new `call_times` and the recorded
admission time. -/
def wait_if_needed (burst_size : Nat) (min_interval : ℚ)
    (stored : List ℚ) (now : ℚ) : List ℚ × ℚ :=
  let pruned := stored.filter fun t => decide (now - t < 1)
  let now2 := rateWait min_interval pruned (burstWait burst_size pruned now)
  (pruned ++ [now2], now2)

theorem le_burstWait (b : Nat) (pruned : List ℚ) (now : ℚ) :
    now ≤ burstWait b pruned now := by
  rw [burstWait]
  split_ifs with h1 h2 <;> linarith

theorem le_rateWait (mi : ℚ) (pruned : List ℚ) (now : ℚ) :
    now ≤ rateWait mi pruned now := by
  rw [rateWait]
  split_ifs with h1 h2 <;> linarith

theorem le_wait_if_needed (b : Nat) (mi : ℚ) (stored : List ℚ) (now : ℚ) :
    now ≤ (wait_if_needed b mi stored now).2 :=
  le_trans (le_burstWait b _ now) (le_rateWait mi _ _)

theorem wait_if_needed_fst (b : Nat) (mi : ℚ) (stored : List ℚ) (now : ℚ) :
    (wait_if_needed b mi stored now).1 =
      (stored.filter fun t => decide (now - t < 1)) ++
        [(wait_if_needed b mi stored now).2] := rfl

/-- A surviving last element stays last after a filter. -/
theorem getLast?_filter {p : ℚ → Bool} {l : List ℚ} {a : ℚ}
    (h : l.getLast? = some a) (hp : p a = true) :
    (l.filter p).getLast? = some a := by
  have hdecomp : l.dropLast ++ [a] = l := List.dropLast_append_getLast? a h
  rw [← hdecomp, List.filter_append]
  simp only [List.filter_cons, hp, List.filter_nil, if_pos]
  exact List.getLast?_concat _

/-- C2 counterexample: with `calls_per_second = 1/2` (minimum interval
`1/(1/2) = 2`), a first call admitted at time 0 and a second arriving at
time 3/2 — after the first was pruned from the 1-unit window — is
admitted immediately at 3/2: the two admitted calls are separated by
only 3/2 < 2 time units. -/
theorem min_interval_cex :
    (wait_if_needed 5 (1 / (1 / 2)) [] 0).2 = 0 ∧
    (wait_if_needed 5 (1 / (1 / 2)) (wait_if_needed 5 (1 / (1 / 2)) [] 0).1 (3 / 2)).2
        - (wait_if_needed 5 (1 / (1 / 2)) [] 0).2 = 3 / 2 ∧
    (3 / 2 : ℚ) < 1 / (1 / 2) := by
  refine ⟨?_, ?_, by norm_num⟩ <;>
    norm_num [wait_if_needed, burstWait, rateWait]

/-- C2 amended: consecutive admitted calls are separated by at least
`min (1/r) 1` time units — the full `1/r` whenever the previous call is
still inside the 1-unit pruning window, but only 1 unit is guaranteed
when `1/r > 1` (i.e. `r < 1`), because a previous call more than 1 unit
old is pruned before the minimum-interval check. -/
theorem min_interval_bound (b : Nat) (r : ℚ) (stored : List ℚ) (now t0 : ℚ)
    (hr : 0 < r) (hlast : stored.getLast? = some t0) (_hnow : t0 ≤ now) :
    min (1 / r) 1 ≤ (wait_if_needed b (1 / r) stored now).2 - t0 := by
  by_cases hw : now - t0 < 1
  · have hpl : ((stored.filter fun t => decide (now - t < 1)).getLast? = some t0) :=
      getLast?_filter hlast (by simpa using hw)
    have hne : ((stored.filter fun t => decide (now - t < 1)).isEmpty = false) := by
      cases hfl : stored.filter fun t => decide (now - t < 1) with
      | nil => rw [hfl] at hpl; simp at hpl
      | cons x xs => simp
    have hlastD : ((stored.filter fun t => decide (now - t < 1)).getLastD 0 = t0) := by
      rw [List.getLastD_eq_getLast?, hpl]; rfl
    have hb1 : now ≤ burstWait b (stored.filter fun t => decide (now - t < 1)) now :=
      le_burstWait _ _ _
    show min (1 / r) 1 ≤
      rateWait (1 / r) (stored.filter fun t => decide (now - t < 1))
        (burstWait b (stored.filter fun t => decide (now - t < 1)) now) - t0
    rw [rateWait, hne, hlastD]
    simp only [Bool.false_eq_true, if_false]
    split_ifs with h2
    · have : (0 : ℚ) < 1 / r := by positivity
      have := min_le_left (1 / r) (1 : ℚ)
      linarith
    · have := min_le_left (1 / r) (1 : ℚ)
      linarith
  · push_neg at hw
    have h1 : now ≤ (wait_if_needed b (1 / r) stored now).2 :=
      le_wait_if_needed _ _ _ _
    have := min_le_right (1 / r) (1 : ℚ)
    linarith

/-- Witness for the amended C2: one previous call at time 0, arrival at
time 1/2, rate `r = 2`: the admission is delayed to time 1/2, exactly
min(1/2, 1) after the previous call. -/
theorem min_interval_bound_witness :
    min (1 / (2 : ℚ)) 1 ≤ (wait_if_needed 5 (1 / 2) [0] (1 / 2)).2 - 0 :=
  min_interval_bound 5 2 [0] (1 / 2) 0 (by norm_num) rfl (by norm_num)

/-- A sorted list splits into the elements failing an upward-closed
predicate followed by those passing it (its filter). -/
theorem sorted_filter_decomp (p : ℚ → Bool) (l : List ℚ)
    (hs : l.Pairwise (· ≤ ·))
    (hup : ∀ s t : ℚ, s ≤ t → p s = true → p t = true) :
    ∃ u, l = u ++ l.filter p ∧ ∀ t ∈ u, p t = false := by
  induction l with
  | nil => exact ⟨[], by simp, by simp⟩
  | cons a l' ih =>
    have hs' : l'.Pairwise (· ≤ ·) := (List.pairwise_cons.mp hs).2
    by_cases h : p a = true
    · refine ⟨[], ?_, by simp⟩
      have hall : ∀ t ∈ a :: l', p t = true := by
        intro t ht
        rcases List.mem_cons.mp ht with rfl | ht'
        · exact h
        · exact hup a t ((List.pairwise_cons.mp hs).1 t ht') h
      rw [List.filter_eq_self.mpr hall, List.nil_append]
    · obtain ⟨u, hu, hub⟩ := ih hs'
      refine ⟨a :: u, ?_, ?_⟩
      · simp only [List.filter_cons, Bool.eq_false_iff.mpr h, Bool.false_eq_true,
          if_false, List.cons_append]
        rw [← hu]
      · intro t ht
        rcases List.mem_cons.mp ht with rfl | ht'
        · exact Bool.eq_false_iff.mpr h
        · exact hub t ht'

/-- When the pruned window already holds `burst_size` calls, the
admission is delayed to at least one unit after the oldest of them. -/
theorem burst_sleep_bound (b : Nat) (mi : ℚ) (stored : List ℚ) (now : ℚ)
    (hfull : b ≤ ((stored.filter fun t => decide (now - t < 1)).length)) :
    (stored.filter fun t => decide (now - t < 1)).headD 0 + 1 ≤
      (wait_if_needed b mi stored now).2 := by
  have h1 : (stored.filter fun t => decide (now - t < 1)).headD 0 + 1 ≤
      burstWait b (stored.filter fun t => decide (now - t < 1)) now := by
    rw [burstWait, if_pos hfull]
    split_ifs with h2 <;> linarith
  calc (stored.filter fun t => decide (now - t < 1)).headD 0 + 1
      ≤ burstWait b (stored.filter fun t => decide (now - t < 1)) now := h1
    _ ≤ (wait_if_needed b mi stored now).2 := le_rateWait mi _ _

/-- Trace invariant for the rate limiter: the admitted-call history is
sorted and bounded by the clock (the last admitted time), the stored
`call_times` are a suffix of the history whose dropped prefix is at
least one unit old, and no 1-unit window holds more than `burst_size`
admitted calls. -/
def LimiterInv (b : Nat) (stored admitted : List ℚ) (clock : ℚ) : Prop :=
  admitted.Pairwise (· ≤ ·) ∧
  (∀ t ∈ admitted, t ≤ clock) ∧
  (∃ dropped, admitted = dropped ++ stored ∧ ∀ t ∈ dropped, t ≤ clock - 1) ∧
  ∀ x : ℚ, (admitted.filter fun t => decide (x < t ∧ t ≤ x + 1)).length ≤ b

/-- One admission preserves the limiter invariant. -/
theorem wait_if_needed_inv (b : Nat) (mi : ℚ) (stored admitted : List ℚ)
    (clock now : ℚ) (hb : 1 ≤ b) (hnow : clock ≤ now)
    (hinv : LimiterInv b stored admitted clock) :
    LimiterInv b (wait_if_needed b mi stored now).1
      (admitted ++ [(wait_if_needed b mi stored now).2])
      (wait_if_needed b mi stored now).2 := by
  obtain ⟨hsort, hclock, ⟨dropped, hdec, hdrop⟩, hcount⟩ := hinv
  have hnowT : now ≤ (wait_if_needed b mi stored now).2 :=
    le_wait_if_needed b mi stored now
  set T := (wait_if_needed b mi stored now).2 with hTdef
  have hstored_sorted : stored.Pairwise (· ≤ ·) := by
    rw [hdec, List.pairwise_append] at hsort
    exact hsort.2.1
  have hstored_mem : ∀ t ∈ stored, t ≤ clock := fun t ht =>
    hclock t (by rw [hdec]; exact List.mem_append_right _ ht)
  obtain ⟨u, hu, hub⟩ := sorted_filter_decomp (fun t => decide (now - t < 1))
    stored hstored_sorted
    (fun s t hst hs => by
      simp only [decide_eq_true_eq] at *
      linarith)
  have hub' : ∀ t ∈ u, t ≤ now - 1 := fun t ht => by
    have := hub t ht
    simp only [decide_eq_false_iff_not, not_lt] at this
    linarith
  refine ⟨?_, ?_, ?_, ?_⟩
  · rw [List.pairwise_append]
    refine ⟨hsort, by simp, ?_⟩
    intro a ha b' hb'
    simp only [List.mem_singleton] at hb'
    subst hb'
    have := hclock a ha
    linarith
  · intro t ht
    rcases List.mem_append.mp ht with ht' | ht'
    · have := hclock t ht'
      linarith
    · simp only [List.mem_singleton] at ht'
      subst ht'
      exact le_refl _
  · refine ⟨dropped ++ u, ?_, ?_⟩
    · rw [wait_if_needed_fst]
      conv_lhs => rw [hdec, hu]
      rw [hTdef]
      simp [List.append_assoc]
    · intro t ht
      rcases List.mem_append.mp ht with ht' | ht'
      · have := hdrop t ht'
        linarith
      · have := hub' t ht'
        linarith
  · intro x
    rw [List.filter_append]
    by_cases hTw : x < T ∧ T ≤ x + 1
    · -- the new admission falls in the window: the old ones there
      -- number at most b - 1
      have hTx : T - 1 ≤ x := by linarith [hTw.2]
      have hx1 : (List.filter (fun t => decide (x < t ∧ t ≤ x + 1)) [T]).length = 1 := by
        simp [List.filter_cons, hTw]
      -- old admissions in the window all survive the prune
      have hdropped_nil :
          dropped.filter (fun t => decide (x < t ∧ t ≤ x + 1)) = [] := by
        rw [List.filter_eq_nil_iff]
        intro t ht
        have h1 := hdrop t ht
        simp only [decide_eq_true_eq, not_and, not_le]
        intro hxt
        linarith
      have hu_nil : u.filter (fun t => decide (x < t ∧ t ≤ x + 1)) = [] := by
        rw [List.filter_eq_nil_iff]
        intro t ht
        have h1 := hub' t ht
        simp only [decide_eq_true_eq, not_and, not_le]
        intro hxt
        linarith
      -- the pruned window itself holds at most b entries
      have hpruned_le : (stored.filter fun t => decide (now - t < 1)).length ≤ b := by
        have hcong : stored.filter (fun t => decide (now - t < 1)) =
            stored.filter (fun t => decide ((now - 1) < t ∧ t ≤ (now - 1) + 1)) := by
          apply List.filter_congr
          intro t ht
          have h1 := hstored_mem t ht
          simp only [decide_eq_decide]
          constructor
          · intro h'; exact ⟨by linarith, by linarith⟩
          · intro h'; linarith [h'.1]
        rw [hcong]
        calc (stored.filter fun t => decide ((now - 1) < t ∧ t ≤ (now - 1) + 1)).length
            ≤ (admitted.filter fun t => decide ((now - 1) < t ∧ t ≤ (now - 1) + 1)).length := by
              rw [hdec, List.filter_append, List.length_append]
              omega
          _ ≤ b := hcount (now - 1)
      have hwindow :
          ((stored.filter fun t => decide (now - t < 1)).filter
            (fun t => decide (x < t ∧ t ≤ x + 1))).length ≤ b - 1 := by
        by_cases hfull : b ≤ (stored.filter fun t => decide (now - t < 1)).length
        · -- the burst sleep pushed the oldest pruned call out of the window
          have hsleep := burst_sleep_bound b mi stored now hfull
          cases hpr : stored.filter fun t => decide (now - t < 1) with
          | nil => simp [hpr]
          | cons h0 tl =>
            rw [hpr] at hsleep
            simp only [List.headD_cons] at hsleep
            have hh0 : ¬ (x < h0 ∧ h0 ≤ x + 1) := by
              intro hc
              have : h0 ≤ T - 1 := by linarith
              linarith [hc.1]
            rw [List.filter_cons]
            simp only [decide_eq_true_eq, hh0, if_false]
            have := List.length_filter_le (fun t => decide (x < t ∧ t ≤ x + 1)) tl
            rw [hpr] at hpruned_le
            simp only [List.length_cons] at hpruned_le
            omega
        · push_neg at hfull
          have := List.length_filter_le (fun t => decide (x < t ∧ t ≤ x + 1))
            (stored.filter fun t => decide (now - t < 1))
          omega
      rw [List.length_append, hx1, hdec, hu, List.filter_append, List.filter_append,
        hdropped_nil, hu_nil]
      simp only [List.nil_append, List.length_nil, List.length_append, Nat.zero_add]
      omega
    · have hx0 : (List.filter (fun t => decide (x < t ∧ t ≤ x + 1)) [T]).length = 0 := by
        simp [List.filter_cons, hTw]
      rw [List.length_append, hx0]
      have := hcount x
      omega

/-- Run a sequence of admissions through one `RateLimiter` instance:
each delay is the (nonnegative) time between the previous admission and
the next arrival at `wait_if_needed`.  Accumulates the stored
`call_times`, the full admitted history, and the clock. -/
def runLimiterAux (b : Nat) (mi : ℚ) (stored admitted : List ℚ) (clock : ℚ) :
    List ℚ → List ℚ × List ℚ × ℚ
  | [] => (stored, admitted, clock)
  | d :: ds =>
    runLimiterAux b mi (wait_if_needed b mi stored (clock + d)).1
      (admitted ++ [(wait_if_needed b mi stored (clock + d)).2])
      (wait_if_needed b mi stored (clock + d)).2 ds

/-- Run a fresh `RateLimiter` (empty `call_times`, clock 0) through a
sequence of admissions. -/
def runLimiter (b : Nat) (mi : ℚ) (delays : List ℚ) : List ℚ × List ℚ × ℚ :=
  runLimiterAux b mi [] [] 0 delays

theorem runLimiterAux_inv (b : Nat) (mi : ℚ) (delays : List ℚ)
    (stored admitted : List ℚ) (clock : ℚ) (hb : 1 ≤ b)
    (hd : ∀ d ∈ delays, 0 ≤ d)
    (hinv : LimiterInv b stored admitted clock) :
    LimiterInv b (runLimiterAux b mi stored admitted clock delays).1
      (runLimiterAux b mi stored admitted clock delays).2.1
      (runLimiterAux b mi stored admitted clock delays).2.2 := by
  induction delays generalizing stored admitted clock with
  | nil => simpa [runLimiterAux] using hinv
  | cons d ds ih =>
    rw [runLimiterAux]
    exact ih _ _ _ (fun d' hd' => hd d' (List.mem_cons_of_mem _ hd'))
      (wait_if_needed_inv b mi stored admitted clock (clock + d) hb
        (by linarith [hd d (List.mem_cons_self _ _)]) hinv)

/-- C6: for every run of a fresh rate limiter with `burst_size = b ≥ 1`
and nonnegative inter-arrival delays, no trailing 1-time-unit window
`(x, x+1]` ever contains more than `b` admitted calls; moreover,
whenever the pruned window already holds `b` calls, the admission is
delayed to at least one unit after the oldest of them, so that it falls
outside the window before the new call is recorded. -/
theorem burst_window_bound (b : Nat) (mi : ℚ) (delays : List ℚ)
    (hb : 1 ≤ b) (hd : ∀ d ∈ delays, 0 ≤ d) :
    (∀ x : ℚ, ((runLimiter b mi delays).2.1.filter
      fun t => decide (x < t ∧ t ≤ x + 1)).length ≤ b) ∧
    (∀ (stored : List ℚ) (now : ℚ),
      b ≤ ((stored.filter fun t => decide (now - t < 1)).length) →
      (stored.filter fun t => decide (now - t < 1)).headD 0 + 1 ≤
        (wait_if_needed b mi stored now).2) := by
  constructor
  · have hinv0 : LimiterInv b [] [] 0 :=
      ⟨List.Pairwise.nil, by simp, ⟨[], by simp, by simp⟩, by simp⟩
    exact (runLimiterAux_inv b mi delays [] [] 0 hb hd hinv0).2.2.2
  · intro stored now hfull
    exact burst_sleep_bound b mi stored now hfull

/-- Witness for C6: burst size 1, two back-to-back arrivals. -/
theorem burst_window_bound_witness :
    (∀ x : ℚ, ((runLimiter 1 1 [0, 0]).2.1.filter
      fun t => decide (x < t ∧ t ≤ x + 1)).length ≤ 1) ∧
    (∀ (stored : List ℚ) (now : ℚ),
      1 ≤ ((stored.filter fun t => decide (now - t < 1)).length) →
      (stored.filter fun t => decide (now - t < 1)).headD 0 + 1 ≤
        (wait_if_needed 1 1 stored now).2) :=
  burst_window_bound 1 1 [0, 0] (le_refl 1)
    (by intro d hdm; simp only [List.mem_cons, List.mem_singleton] at hdm
        rcases hdm with rfl | rfl | h
        · exact le_refl 0
        · exact le_refl 0
        · simp at h)

/-! ### Batch-result merging (`get_data_as_dataframe`, batched branch) -/

/-- Pandas `drop_duplicates()` (keep first) over abstract records:
keep a record only if an equal one has not been kept already. -/
def dedupFirst [DecidableEq α] (seen : List α) : List α → List α
  | [] => []
  | x :: xs =>
    if x ∈ seen then dedupFirst seen xs else x :: dedupFirst (x :: seen) xs

/-- The `all_dataframes` list of the batched branch: each batch outcome
is an `Except` (an error models any exception raised while dispatching
or converting that batch, which the branch catches and skips); empty
frames are not appended. -/
def collectFrames (results : List (Except String (List α))) : List (List α) :=
  results.filterMap fun r =>
    match r with
    | .ok rows => if rows.isEmpty then none else some rows
    | .error _ => none

/-- `pd.concat(all_dataframes)`: the rows of the successful non-empty
batches, in batch-submission order. -/
def concatBatches (results : List (Except String (List α))) : List α :=
  (collectFrames results).flatten

/-- The batched branch of `TrafikanalysClient.get_data_as_dataframe`:
if no batch produced data, an explicitly empty table; otherwise the
concatenation of the successful frames with exact-duplicate records
removed, keeping the first occurrence. -/
def mergeBatches [DecidableEq α] (results : List (Except String (List α))) : List α :=
  if (collectFrames results).isEmpty then []
  else dedupFirst [] (concatBatches results)

theorem mem_dedupFirst [DecidableEq α] (seen l : List α) (a : α) :
    a ∈ dedupFirst seen l ↔ a ∉ seen ∧ a ∈ l := by
  induction l generalizing seen with
  | nil => simp [dedupFirst]
  | cons x xs ih =>
    by_cases hx : x ∈ seen
    · rw [dedupFirst, if_pos hx, ih]
      constructor
      · exact fun ⟨h1, h2⟩ => ⟨h1, List.mem_cons_of_mem _ h2⟩
      · rintro ⟨h1, h2⟩
        rcases List.mem_cons.mp h2 with rfl | h3
        · exact absurd hx h1
        · exact ⟨h1, h3⟩
    · rw [dedupFirst, if_neg hx]
      rw [List.mem_cons, ih]
      constructor
      · rintro (rfl | ⟨h1, h2⟩)
        · exact ⟨hx, List.mem_cons_self _ _⟩
        · refine ⟨fun hs => h1 (List.mem_cons_of_mem _ hs), List.mem_cons_of_mem _ h2⟩
      · rintro ⟨h1, h2⟩
        rcases List.mem_cons.mp h2 with rfl | h3
        · exact Or.inl rfl
        · by_cases hax : a = x
          · exact Or.inl hax
          · exact Or.inr ⟨by simp [hax, h1], h3⟩

theorem count_dedupFirst [DecidableEq α] (seen l : List α) (a : α) :
    (dedupFirst seen l).count a = if a ∉ seen ∧ a ∈ l then 1 else 0 := by
  induction l generalizing seen with
  | nil => simp [dedupFirst]
  | cons x xs ih =>
    by_cases hx : x ∈ seen
    · rw [dedupFirst, if_pos hx, ih]
      by_cases hc : a ∉ seen ∧ a ∈ xs
      · rw [if_pos hc, if_pos ⟨hc.1, List.mem_cons_of_mem _ hc.2⟩]
      · rw [if_neg hc, if_neg]
        rintro ⟨h1, h2⟩
        rcases List.mem_cons.mp h2 with rfl | h3
        · exact h1 hx
        · exact hc ⟨h1, h3⟩
    · rw [dedupFirst, if_neg hx, List.count_cons, ih]
      by_cases hax : x = a
      · subst hax
        simp only [beq_self_eq_true, if_true]
        rw [if_neg (by simp), if_pos ⟨hx, List.mem_cons_self _ _⟩]
      · simp only [beq_iff_eq, hax, if_false, Nat.add_zero]
        by_cases hc : a ∉ x :: seen ∧ a ∈ xs
        · rw [if_pos hc, if_pos]
          refine ⟨fun hs => hc.1 (List.mem_cons_of_mem _ hs), List.mem_cons_of_mem _ hc.2⟩
        · rw [if_neg hc, if_neg]
          rintro ⟨h1, h2⟩
          rcases List.mem_cons.mp h2 with rfl | h3
          · exact hax rfl
          · refine hc ⟨?_, h3⟩
            intro hmem
            rcases List.mem_cons.mp hmem with rfl | hs
            · exact hax rfl
            · exact h1 hs

theorem dedupFirst_sublist [DecidableEq α] (seen l : List α) :
    (dedupFirst seen l).Sublist l := by
  induction l generalizing seen with
  | nil => simp [dedupFirst]
  | cons x xs ih =>
    by_cases hx : x ∈ seen
    · rw [dedupFirst, if_pos hx]
      exact (ih seen).cons x
    · rw [dedupFirst, if_neg hx]
      exact (ih (x :: seen)).cons₂ x

/-- The deduplicated list is ordered by first-occurrence position in
the source: later duplicates are dropped, never reordered. -/
theorem dedupFirst_pairwise_indexOf [DecidableEq α] (seen l : List α) :
    (dedupFirst seen l).Pairwise fun b c => l.indexOf b < l.indexOf c := by
  induction l generalizing seen with
  | nil => simp [dedupFirst]
  | cons x xs ih =>
    have hmem : ∀ a ∈ dedupFirst (x :: seen) xs, a ≠ x := by
      intro a ha
      have := (mem_dedupFirst _ _ _).mp ha
      intro hax
      exact this.1 (hax ▸ List.mem_cons_self x seen)
    by_cases hx : x ∈ seen
    · rw [dedupFirst, if_pos hx]
      have hmem' : ∀ a ∈ dedupFirst seen xs, a ≠ x := by
        intro a ha hax
        exact ((mem_dedupFirst _ _ _).mp ha).1 (hax ▸ hx)
      refine (ih seen).imp_of_mem ?_
      intro b c hb hc hlt
      rw [List.indexOf_cons_ne _ (Ne.symm (hmem' b hb)),
        List.indexOf_cons_ne _ (Ne.symm (hmem' c hc))]
      exact Nat.succ_lt_succ hlt
    · rw [dedupFirst, if_neg hx]
      rw [List.pairwise_cons]
      constructor
      · intro c hc
        rw [List.indexOf_cons_self, List.indexOf_cons_ne _ (Ne.symm (hmem c hc))]
        exact Nat.succ_pos _
      · refine (ih (x :: seen)).imp_of_mem ?_
        intro b c hb hc hlt
        rw [List.indexOf_cons_ne _ (Ne.symm (hmem b hb)),
          List.indexOf_cons_ne _ (Ne.symm (hmem c hc))]
        exact Nat.succ_lt_succ hlt

/-- C5: a failing batch is skipped without aborting the rest or raising
(removing it from the sequence leaves the merged result unchanged); if
every batch fails the result is the empty table; and for the sequence
[success, failure, success] the merged rows are exactly those of the
two successful batches. -/
theorem batch_failure_tolerance (α : Type) [DecidableEq α] :
    (∀ (xs ys : List (Except String (List α))) (e : String),
      mergeBatches (xs ++ .error e :: ys) = mergeBatches (xs ++ ys)) ∧
    (∀ rs : List (Except String (List α)),
      (∀ r ∈ rs, ∃ e, r = .error e) → mergeBatches rs = []) ∧
    (∀ (r1 r2 : List α) (e : String) (a : α),
      a ∈ mergeBatches [.ok r1, .error e, .ok r2] ↔ a ∈ r1 ++ r2) := by
  have hcf : ∀ (xs ys : List (Except String (List α))) (e : String),
      collectFrames (xs ++ .error e :: ys) = collectFrames (xs ++ ys) := by
    intro xs ys e
    rw [collectFrames, collectFrames, List.filterMap_append, List.filterMap_append,
      List.filterMap_cons]
  refine ⟨?_, ?_, ?_⟩
  · intro xs ys e
    rw [mergeBatches, mergeBatches, concatBatches, concatBatches, hcf]
  · intro rs h
    have : collectFrames rs = [] := by
      rw [collectFrames, List.filterMap_eq_nil_iff]
      intro r hr
      obtain ⟨e, rfl⟩ := h r hr
      rfl
    rw [mergeBatches, this]
    simp
  · intro r1 r2 e a
    have h1 := hcf [.ok r1] [.ok r2] e
    simp only [List.cons_append, List.nil_append] at h1
    rw [mergeBatches, concatBatches, h1, collectFrames]
    by_cases hr1 : r1.isEmpty <;> by_cases hr2 : r2.isEmpty
    · rw [List.isEmpty_eq_true] at hr1 hr2
      subst hr1; subst hr2
      simp
    · rw [List.isEmpty_eq_true] at hr1
      subst hr1
      simp [hr2, mem_dedupFirst]
      aesop
    · rw [List.isEmpty_eq_true] at hr2
      subst hr2
      simp [hr1, mem_dedupFirst]
      aesop
    · simp [hr1, hr2, mem_dedupFirst]
      aesop

/-- Witness for C5 over `Nat` rows. -/
theorem batch_failure_tolerance_witness :
    mergeBatches [.ok [0], .error "boom", .ok [1]]
      = mergeBatches [(.ok [0] : Except String (List Nat)), .ok [1]] ∧
    mergeBatches [(.error "a" : Except String (List Nat)), .error "b"] = [] ∧
    (2 ∈ mergeBatches [(.ok [0] : Except String (List Nat)), .error "boom", .ok [2]]
       ↔ 2 ∈ [0] ++ [2]) :=
  ⟨(batch_failure_tolerance Nat).1 [.ok [0]] [.ok [1]] "boom",
   (batch_failure_tolerance Nat).2.1 [.error "a", .error "b"]
     (by intro r hr
         rcases List.mem_cons.mp hr with rfl | hr'
         · exact ⟨"a", rfl⟩
         · rcases List.mem_cons.mp hr' with rfl | hr''
           · exact ⟨"b", rfl⟩
           · simp at hr''),
   (batch_failure_tolerance Nat).2.2 [0] [2] "boom" 2⟩

/-- C8: a record occurring in the concatenated successful frames (in
particular an exact duplicate across two batches) appears in the merged
result exactly once; the merged result is a subsequence of the
concatenation (batch-submission order preserved) ordered by
first-occurrence position, i.e. the first occurrence is the one kept. -/
theorem merge_dedup_keeps_first {α : Type} [DecidableEq α]
    (results : List (Except String (List α))) (a : α)
    (h : a ∈ concatBatches results) :
    (mergeBatches results).count a = 1 ∧
    (mergeBatches results).Sublist (concatBatches results) ∧
    (mergeBatches results).Pairwise
      (fun b c => (concatBatches results).indexOf b < (concatBatches results).indexOf c) := by
  have hne : (collectFrames results).isEmpty = false := by
    cases hc : collectFrames results with
    | nil => rw [concatBatches, hc] at h; simp at h
    | cons f fs => simp
  rw [mergeBatches, hne]
  simp only [Bool.false_eq_true, if_false]
  refine ⟨?_, dedupFirst_sublist [] _, dedupFirst_pairwise_indexOf [] _⟩
  rw [count_dedupFirst, if_pos ⟨List.not_mem_nil a, h⟩]

/-- Witness for C8: the record 7 appears in both successful batches and
exactly once in the merge. -/
theorem merge_dedup_keeps_first_witness :
    (mergeBatches [.ok [7], .error "x", .ok [7, 8]]).count 7 = 1 ∧
    (mergeBatches [.ok [7], .error "x", .ok [7, 8]]).Sublist
      (concatBatches [.ok [7], .error "x", .ok [7, 8]]) ∧
    (mergeBatches [.ok [7], .error "x", .ok [7, 8]]).Pairwise
      (fun b c => (concatBatches [.ok [7], .error "x", .ok [7, 8]]).indexOf b
        < (concatBatches [(.ok [7] : Except String (List Nat)), .error "x", .ok [7, 8]]).indexOf c) :=
  merge_dedup_keeps_first [.ok [7], .error "x", .ok [7, 8]] 7 (by decide)

/-! ### Response cache (`cache_utils.APICache`), with the cache
directory modelled as a key-to-(payload, mtime) association list and
I/O assumed to succeed (I/O failures are out of the model; the code
maps them to a miss / a `False` result). -/

/-- `APICache` configuration plus the state of its cache directory. -/
structure APICache (α : Type) where
  enabled : Bool
  expiry_seconds : ℚ
  store : List (String × α × ℚ)
deriving DecidableEq, Repr

/-- The file stored under `key`, if any: payload and mtime. -/
def cacheLookup (store : List (String × α × ℚ)) (key : String) : Option (α × ℚ) :=
  (store.find? fun e => e.1 = key).map (·.2)

/-- Whole-file write: replace the entry under `key`, or create it. -/
def cacheWrite (store : List (String × α × ℚ)) (key : String) (v : α × ℚ) :
    List (String × α × ℚ) :=
  match store with
  | [] => [(key, v)]
  | (k, w) :: rest =>
    if k = key then (k, v) :: rest else (k, w) :: cacheWrite rest key v

/-- `APICache.is_cache_valid`: enabled, the file exists, and its age
`now - mtime` is strictly below `expiry_seconds`. -/
def is_cache_valid (c : APICache α) (now : ℚ) (key : String) : Bool :=
  if !c.enabled then false
  else
    match cacheLookup c.store key with
    | none => false
    | some (_, mtime) => decide (now - mtime < c.expiry_seconds)

/-- `APICache.get_from_cache`: `None` unless the cache is valid, else
the stored payload (a successful read/decode is assumed; a failing one
would also yield `None`). -/
def get_from_cache (c : APICache α) (now : ℚ) (key : String) : Option α :=
  if !(is_cache_valid c now key) then none
  else (cacheLookup c.store key).map (·.1)

/-- `APICache.save_to_cache`: `False` without touching storage when
disabled; otherwise write the payload with mtime `now` and report
`True` (a successful write is assumed). -/
def save_to_cache (c : APICache α) (now : ℚ) (key : String) (data : α) :
    APICache α × Bool :=
  if !c.enabled then (c, false)
  else (APICache.mk c.enabled c.expiry_seconds (cacheWrite c.store key (data, now)), true)

theorem cacheLookup_cacheWrite_same (store : List (String × α × ℚ))
    (key : String) (v : α × ℚ) :
    cacheLookup (cacheWrite store key v) key = some v := by
  induction store with
  | nil => simp [cacheLookup, cacheWrite, List.find?]
  | cons hd tl ih =>
    obtain ⟨k, w⟩ := hd
    by_cases h : k = key
    · subst h
      simp [cacheLookup, cacheWrite, List.find?]
    · simpa [cacheLookup, cacheWrite, List.find?, h] using ih

/-- C9: an enabled, still-fresh cache round-trips `put`/`get` exactly;
`get` reports absent when the cache is disabled, the entry has expired,
or nothing was stored under the key; and a disabled `put` reports
failure and leaves the state untouched. -/
theorem cache_round_trip (c : APICache α) (k : String) (v : α) (t1 t2 : ℚ) :
    (get_from_cache (save_to_cache c t1 k v).1 t2 k = some v ↔
      (c.enabled = true ∧ t2 - t1 < c.expiry_seconds)) ∧
    (c.enabled = false →
      (save_to_cache c t1 k v).2 = false ∧ (save_to_cache c t1 k v).1 = c ∧
      get_from_cache c t2 k = none) ∧
    (cacheLookup c.store k = none → get_from_cache c t2 k = none) := by
  refine ⟨?_, ?_, ?_⟩
  · cases hen : c.enabled with
    | false =>
      rw [save_to_cache]
      simp only [hen, Bool.not_false, if_pos]
      rw [get_from_cache, is_cache_valid]
      simp [hen]
    | true =>
      rw [save_to_cache]
      simp only [hen, Bool.not_true, Bool.false_eq_true, if_false]
      rw [get_from_cache, is_cache_valid]
      simp only [Bool.not_true, Bool.false_eq_true, if_false]
      rw [cacheLookup_cacheWrite_same]
      by_cases hfresh : t2 - t1 < c.expiry_seconds
      · simp [hfresh]
      · simp [hfresh]
  · intro hdis
    rw [save_to_cache, get_from_cache, is_cache_valid]
    simp [hdis]
  · intro hnone
    rw [get_from_cache, is_cache_valid, hnone]
    cases hen : c.enabled <;> simp

/-- Witness for C9: a fresh enabled cache with 10-unit expiry,
written at time 0 and read at time 1, and a disabled cache. -/
theorem cache_round_trip_witness :
    (get_from_cache (save_to_cache (APICache.mk true 10 []) 0 "k" (5 : Nat)).1 1 "k" = some 5 ↔
      ((APICache.mk true 10 ([] : List (String × Nat × ℚ))).enabled = true ∧
        (1 : ℚ) - 0 < (APICache.mk true 10 ([] : List (String × Nat × ℚ))).expiry_seconds)) ∧
    ((save_to_cache (APICache.mk false 10 ([] : List (String × Nat × ℚ))) 0 "k" 5).2 = false ∧
      (save_to_cache (APICache.mk false 10 ([] : List (String × Nat × ℚ))) 0 "k" 5).1
        = APICache.mk false 10 [] ∧
      get_from_cache (APICache.mk false 10 ([] : List (String × Nat × ℚ))) 1 "k" = none) ∧
    get_from_cache (APICache.mk true 10 ([] : List (String × Nat × ℚ))) 1 "k" = none :=
  ⟨(cache_round_trip (APICache.mk true 10 []) "k" 5 0 1).1,
   (cache_round_trip (APICache.mk false 10 []) "k" 5 0 1).2.1 rfl,
   (cache_round_trip (APICache.mk true 10 []) "k" 5 0 1).2.2 rfl⟩

/-- A cache miss persists at any later time: disabled stays disabled, a
missing file stays missing, and an expired entry only gets older. -/
theorem get_from_cache_none_mono (c : APICache α) (k : String) (t1 t2 : ℚ)
    (h12 : t1 ≤ t2) (hnone : get_from_cache c t1 k = none) :
    get_from_cache c t2 k = none := by
  rw [get_from_cache] at hnone ⊢
  rw [is_cache_valid] at hnone ⊢
  cases hen : c.enabled with
  | false => simp [hen]
  | true =>
    simp only [hen, Bool.not_true, Bool.false_eq_true, if_false] at hnone ⊢
    cases hl : cacheLookup c.store k with
    | none => simp
    | some e =>
      obtain ⟨d, mtime⟩ := e
      rw [hl] at hnone
      simp only [hl]
      by_cases hv : t1 - mtime < c.expiry_seconds
      · simp [hv] at hnone
      · have hv2 : ¬ t2 - mtime < c.expiry_seconds := by
          push_neg at hv ⊢
          linarith
        simp [hv2]

/-! ### Cached requests (`cached_api_request`) and raw status handling
(`TrafikanalysClient._make_request_raw`).  A JSON-object payload is
modelled as its field list; Python truthiness of a dict is
non-emptiness. -/

/-- A decoded JSON-object response: its fields. -/
abbrev JsonObj := List (String × String)

/-- `TrafikanalysClient._make_request_raw` status handling: a non-200
status raises a retryable request exception for 429 and for ≥ 500 but
otherwise returns the empty dict `{}`; a 200 returns the decoded
body. -/
def make_request_raw (status : Nat) (body : JsonObj) : Except PyError JsonObj :=
  if status ≠ 200 then
    if status = 429 then .error (.reqExc (some 429))
    else if 500 ≤ status then .error (.reqExc (some status))
    else .ok []
  else .ok body

/-- `cached_api_request`: serve a cached response when one is valid;
otherwise invoke the request function (its return value is the
`response` argument) and cache the result only when it is truthy.
Returns the new cache state, the response handed to the caller, and
whether the request function was invoked. -/
def cached_api_request (c : APICache JsonObj) (now : ℚ) (key : String)
    (response : JsonObj) : APICache JsonObj × JsonObj × Bool :=
  match get_from_cache c now key with
  | some cached => (c, cached, false)
  | none =>
    if response.isEmpty then (c, response, true)
    else ((save_to_cache c now key response).1, response, true)

/-- C10: a falsy response — in particular the `{}` that
`_make_request_raw` returns for a non-retryable non-200 status — is
never written to the cache: the cache state is unchanged, so a later
call for the same key misses again and re-invokes the request function
instead of serving a cached failure. -/
theorem empty_response_not_cached (c : APICache JsonObj) (now later : ℚ)
    (key : String) (status : Nat) (body : JsonObj)
    (hmiss : get_from_cache c now key = none)
    (hst : status ≠ 200) (h429 : status ≠ 429) (h5xx : status < 500)
    (hle : now ≤ later) :
    make_request_raw status body = .ok [] ∧
    (cached_api_request c now key []).1 = c ∧
    (cached_api_request c now key []).2.1 = [] ∧
    (cached_api_request c now key []).2.2 = true ∧
    (cached_api_request (cached_api_request c now key []).1 later key []).2.2 = true := by
  have hraw : make_request_raw status body = .ok [] := by
    rw [make_request_raw, if_pos hst, if_neg h429, if_neg (by omega)]
  have hstep : cached_api_request c now key [] = (c, [], true) := by
    rw [cached_api_request]
    simp [hmiss]
  refine ⟨hraw, by rw [hstep], by rw [hstep], by rw [hstep], ?_⟩
  rw [hstep]
  have hmiss2 : get_from_cache c later key = none :=
    get_from_cache_none_mono c key now later hle hmiss
  rw [cached_api_request]
  simp [hmiss2]

/-- Witness for C10: an empty enabled cache, a 404 response at time 0
and a repeat call at time 1. -/
theorem empty_response_not_cached_witness :
    make_request_raw 404 [("a", "b")] = .ok [] ∧
    (cached_api_request (APICache.mk true 10 []) 0 "k" []).1 = APICache.mk true 10 [] ∧
    (cached_api_request (APICache.mk true 10 []) 0 "k" []).2.1 = [] ∧
    (cached_api_request (APICache.mk true 10 []) 0 "k" []).2.2 = true ∧
    (cached_api_request (cached_api_request (APICache.mk true 10 []) 0 "k" []).1 1 "k" []).2.2
      = true :=
  empty_response_not_cached (APICache.mk true 10 []) 0 1 "k" 404 [("a", "b")]
    (by decide) (by decide) (by decide) (by decide) (by norm_num)

end Trafapy
